import Mathlib

/-!
Verification of the cpython-ext-ctrl-c repository's core algorithms against
its specification, via a shallow embedding of the C sources in Lean 4.

Embedded source files:
  * CheckSignalsOftenEnough.fuzz/src/tdal.c — the two implementations of
    "at least min_ns nanoseconds elapsed between two timespecs"
  * CheckSignalsOftenEnough.c — timespec_difference_at_least (cases variant)
  * ctrlc/kissfft_subset.c — kf_factor, kf_work, kf_bfly2, kf_bfly4
  * ctrlc/interruptible.c — the cancellation-policy check callbacks and
    maybe_interruptible
  * ctrlc/signaler.c — the PeriodicSignalContext enter/exit depth counting

Machine integers are modelled as Nat/Int; where the C code relies on
uint64 wraparound (nanosecond clock subtraction) the wraparound is made
explicit with a modulus.  Single-precision complex samples are modelled as
pairs of rationals: every claim proved about the sample arithmetic only
involves values (0 and 1 and products with 0) on which binary32 arithmetic
is exact, so the rational model is faithful there.
-/

/-! ### Clock source: struct timespec and the elapsed-at-least predicate

Translated from CheckSignalsOftenEnough.fuzz/src/tdal.c (and the identical
code under #ifdef in CheckSignalsOftenEnough.c).  tv_sec and tv_nsec are
modelled as unbounded Int; the C `int_least64_t` arithmetic agrees with
this model whenever it does not overflow, which is the proviso of claim C1.
-/

structure Timespec where
  tv_sec : Int
  tv_nsec : Int
deriving DecidableEq, Repr

def ONE_S_IN_NS : Int := 1000000000

/-- Total nanosecond reading of a timespec: tv_sec * ONE_S_IN_NS + tv_nsec. -/
def timespec_to_ns (t : Timespec) : Int :=
  t.tv_sec * ONE_S_IN_NS + t.tv_nsec

/-- Direct-subtraction implementation from tdal.c
(c_timespec_difference_at_least_mul): true iff (after - before) >= min_ns
or (after - before) < 0, computed on 64-bit nanosecond totals. -/
def c_timespec_difference_at_least_mul
    (after before : Timespec) (min_ns : Int) : Bool :=
  let before_ns := before.tv_sec * ONE_S_IN_NS + before.tv_nsec
  let after_ns := after.tv_sec * ONE_S_IN_NS + after.tv_nsec
  let delta_ns := after_ns - before_ns
  decide (delta_ns < 0) || decide (delta_ns ≥ min_ns)

/-- Three-case implementation from tdal.c
(c_timespec_difference_at_least_cases): same-second compares the nsec
fields, consecutive-second adjusts by one second, and any larger gap (or a
backward second step) returns true without reading the nsec fields. -/
def c_timespec_difference_at_least_cases
    (after before : Timespec) (min_ns : Int) : Bool :=
  if after.tv_sec = before.tv_sec then
    decide (after.tv_nsec - before.tv_nsec ≥ min_ns)
      || decide (after.tv_nsec < before.tv_nsec)
  else if after.tv_sec = before.tv_sec + 1 then
    decide ((ONE_S_IN_NS + after.tv_nsec) - before.tv_nsec ≥ min_ns)
  else
    true

/-- The static timespec_difference_at_least of CheckSignalsOftenEnough.c:
without SIMPLE_TIMESPEC_DIFFERENCE defined, it is the three-case
implementation. -/
def timespec_difference_at_least
    (after before : Timespec) (min_ns : Int) : Bool :=
  c_timespec_difference_at_least_cases after before min_ns

/-- A timespec is valid when its sub-second field lies in [0, 10^9). -/
def Timespec.Valid (t : Timespec) : Prop :=
  0 ≤ t.tv_nsec ∧ t.tv_nsec < ONE_S_IN_NS

/-- C1: for every pair of valid timestamps and every min_ns in
[0, 10^9), the direct-subtraction and the three-case implementations of
elapsed_at_least return the same boolean (the Int model embodies the
no-overflow proviso of the direct 64-bit arithmetic). -/
theorem c1_tdal_mul_cases_agree
    (after before : Timespec) (min_ns : Int)
    (ha : after.Valid) (hb : before.Valid)
    (hm0 : 0 ≤ min_ns) (hm : min_ns < ONE_S_IN_NS) :
    c_timespec_difference_at_least_mul after before min_ns =
      c_timespec_difference_at_least_cases after before min_ns := by
  obtain ⟨ha0, ha1⟩ := ha
  obtain ⟨hb0, hb1⟩ := hb
  unfold c_timespec_difference_at_least_mul
    c_timespec_difference_at_least_cases ONE_S_IN_NS at *
  split
  · rename_i hsec
    rw [Bool.eq_iff_iff]
    simp only [Bool.or_eq_true, decide_eq_true_eq]
    omega
  · split
    · rename_i hne hsec
      rw [Bool.eq_iff_iff]
      simp only [Bool.or_eq_true, decide_eq_true_eq]
      omega
    · rename_i hne hne1
      rw [Bool.eq_iff_iff]
      simp only [Bool.or_eq_true, decide_eq_true_eq, iff_true]
      omega

/-- Witness for C1 at a concrete input: after = 5.3 s, before = 4.9 s,
min_ns = 2 * 10^8. -/
theorem c1_tdal_mul_cases_agree_witness :
    c_timespec_difference_at_least_mul
        ⟨5, 300000000⟩ ⟨4, 900000000⟩ 200000000 =
      c_timespec_difference_at_least_cases
        ⟨5, 300000000⟩ ⟨4, 900000000⟩ 200000000 :=
  c1_tdal_mul_cases_agree ⟨5, 300000000⟩ ⟨4, 900000000⟩ 200000000
    (by constructor <;> decide) (by constructor <;> decide)
    (by decide) (by decide)

/-- C7: elapsed_at_least returns true whenever after is at or past before
by at least min_ns nanoseconds, and also whenever after strictly precedes
before (backward clock step), so a backward step never suppresses a
cancellation check. -/
theorem c7_elapsed_at_least_fail_open
    (after before : Timespec) (min_ns : Int)
    (ha : after.Valid) (hb : before.Valid)
    (hm0 : 0 ≤ min_ns) (hm : min_ns < ONE_S_IN_NS) :
    (timespec_to_ns after - timespec_to_ns before ≥ min_ns →
      timespec_difference_at_least after before min_ns = true) ∧
    (timespec_to_ns after < timespec_to_ns before →
      timespec_difference_at_least after before min_ns = true) := by
  obtain ⟨ha0, ha1⟩ := ha
  obtain ⟨hb0, hb1⟩ := hb
  unfold timespec_difference_at_least c_timespec_difference_at_least_cases
    timespec_to_ns ONE_S_IN_NS at *
  constructor <;> intro h
  · split
    · rename_i hsec
      rw [hsec] at h
      simp only [Bool.or_eq_true, decide_eq_true_eq]
      left; omega
    · split
      · rename_i hsec
        rw [hsec] at h
        simp only [decide_eq_true_eq]
        omega
      · rfl
  · split
    · rename_i hsec
      rw [hsec] at h
      simp only [Bool.or_eq_true, decide_eq_true_eq]
      right; omega
    · split
      · rename_i hsec
        rw [hsec] at h
        simp only [decide_eq_true_eq]
        omega
      · rfl

/-- Witness for C7 at concrete inputs: an elapsed pair and a
backward-clock pair, both yielding true. -/
theorem c7_elapsed_at_least_fail_open_witness :
    timespec_difference_at_least ⟨7, 500000⟩ ⟨7, 100000⟩ 300000 = true ∧
    timespec_difference_at_least ⟨6, 0⟩ ⟨7, 100000⟩ 300000 = true := by
  constructor
  · exact (c7_elapsed_at_least_fail_open ⟨7, 500000⟩ ⟨7, 100000⟩ 300000
      (by constructor <;> decide) (by constructor <;> decide)
      (by decide) (by decide)).1 (by decide)
  · exact (c7_elapsed_at_least_fail_open ⟨6, 0⟩ ⟨7, 100000⟩ 300000
      (by constructor <;> decide) (by constructor <;> decide)
      (by decide) (by decide)).2 (by decide)

/-! ### Transform factorization

Translated from ctrlc/kissfft_subset.c: kf_factor populates a bounded
factor array with (radix, stride) pairs, stripping all factors of 4 first
and then remaining factors of 2, and fails unless the input reduces to
exactly 1.  The two array-overrun guard branches are modelled as distinct
failure values so that their (un)reachability can be stated.  The sample
count is a uint32_t in C; numbers are modelled as Nat and theorems carry
the uint32 range as a hypothesis.
-/

def MAXFACTORS : ℕ := 16

structure KissFactor where
  radix : ℕ
  stride : ℕ
deriving DecidableEq, Repr

inductive FactorFail
  | overrun4
  | overrun2
  | notPowerOfTwo
deriving DecidableEq, Repr

/-- First loop of kf_factor: factor out all powers of 4, guarding against
overrunning the MAXFACTORS-element factor array.  The loop index i and the
factors written so far are threaded explicitly. -/
def kf_factor_loop4 (n i : ℕ) (acc : List KissFactor) :
    Except FactorFail (List KissFactor × ℕ × ℕ) :=
  if n % 4 = 0 then
    if MAXFACTORS ≤ i then Except.error FactorFail.overrun4
    else kf_factor_loop4 (n / 4) (i + 1) (acc ++ [⟨4, n / 4⟩])
  else Except.ok (acc, n, i)
termination_by MAXFACTORS - i
decreasing_by unfold MAXFACTORS at *; omega

/-- Second loop of kf_factor: factor out remaining powers of 2 (at most
one can remain after the 4-loop, but the loop is written anyway, as in the
source), with the same overrun guard. -/
def kf_factor_loop2 (n i : ℕ) (acc : List KissFactor) :
    Except FactorFail (List KissFactor × ℕ) :=
  if n % 2 = 0 then
    if MAXFACTORS ≤ i then Except.error FactorFail.overrun2
    else kf_factor_loop2 (n / 2) (i + 1) (acc ++ [⟨2, n / 2⟩])
  else Except.ok (acc, n)
termination_by MAXFACTORS - i
decreasing_by unfold MAXFACTORS at *; omega

/-- kf_factor from kissfft_subset.c: all 4s, then remaining 2s, then fail
unless the remaining quotient is exactly 1. -/
def kf_factor (n : ℕ) : Except FactorFail (List KissFactor) :=
  match kf_factor_loop4 n 0 [] with
  | Except.error e => Except.error e
  | Except.ok (acc, n1, i1) =>
    match kf_factor_loop2 n1 i1 acc with
    | Except.error e => Except.error e
    | Except.ok (acc2, n2) =>
      if n2 = 1 then Except.ok acc2 else Except.error FactorFail.notPowerOfTwo

/-- A sample count is a power of two. -/
def IsPow2 (n : ℕ) : Prop := ∃ k, n = 2 ^ k

/-- Unfolding lemma for the 4-loop on an input with exactly a factors of
four: it writes a factors of radix 4 and stops at the 4-free part. -/
theorem kf_factor_loop4_spec (a : ℕ) :
    ∀ (r i : ℕ) (acc : List KissFactor), r % 4 ≠ 0 → i + a ≤ MAXFACTORS →
    ∃ L, kf_factor_loop4 (4 ^ a * r) i acc =
        Except.ok (acc ++ L, r, i + a) ∧
      L.map KissFactor.radix = List.replicate a 4 := by
  induction a with
  | zero =>
    intro r i acc hr _
    refine ⟨[], ?_, rfl⟩
    rw [kf_factor_loop4]
    simp [hr]
  | succ a ih =>
    intro r i acc hr hle
    have hdvd : (4 ^ (a + 1) * r) % 4 = 0 := by
      have : 4 ∣ 4 ^ (a + 1) * r := by
        exact Dvd.dvd.mul_right (dvd_pow_self 4 (Nat.succ_ne_zero a)) r
      omega
    have hi : ¬ MAXFACTORS ≤ i := by omega
    have hquot : 4 ^ (a + 1) * r / 4 = 4 ^ a * r := by
      have h4 : 4 ^ (a + 1) * r = 4 * (4 ^ a * r) := by ring
      rw [h4, Nat.mul_div_cancel_left _ (by norm_num)]
    obtain ⟨L, hL, hrad⟩ := ih r (i + 1) (acc ++ [⟨4, 4 ^ a * r⟩]) hr (by omega)
    refine ⟨⟨4, 4 ^ a * r⟩ :: L, ?_, ?_⟩
    · rw [kf_factor_loop4]
      simp only [hdvd, if_pos rfl, hi, if_neg hi, if_false, hquot]
      rw [hL]
      simp [List.append_assoc]
      omega
    · simp [hrad, List.replicate_succ]

/-- The 2-loop is the identity on an odd input. -/
theorem kf_factor_loop2_odd (r i : ℕ) (acc : List KissFactor)
    (hr : r % 2 = 1) :
    kf_factor_loop2 r i acc = Except.ok (acc, r) := by
  rw [kf_factor_loop2]
  simp [hr]

/-- On an input that is twice an odd number (which is what the 2-loop can
receive after the 4-loop), the 2-loop writes exactly one factor of radix 2
provided the factor array is not already full. -/
theorem kf_factor_loop2_twiceodd (r i : ℕ) (acc : List KissFactor)
    (hr : r % 4 = 2) (hi : i < MAXFACTORS) :
    kf_factor_loop2 r i acc =
      Except.ok (acc ++ [⟨2, r / 2⟩], r / 2) ∧ (r / 2) % 2 = 1 := by
  have hr2 : r % 2 = 0 := by omega
  have hodd : (r / 2) % 2 = 1 := by omega
  refine ⟨?_, hodd⟩
  rw [kf_factor_loop2]
  simp only [hr2, if_pos rfl, if_neg (by omega : ¬ MAXFACTORS ≤ i)]
  exact kf_factor_loop2_odd (r / 2) (i + 1) (acc ++ [⟨2, r / 2⟩]) hodd

/-- Every positive number splits as a power of 4 times a 4-free part. -/
theorem exists_four_decomp :
    ∀ n : ℕ, 1 ≤ n → ∃ a r, n = 4 ^ a * r ∧ r % 4 ≠ 0 := by
  intro n
  induction n using Nat.strong_induction_on with
  | _ n ih =>
    intro hn
    by_cases h : n % 4 = 0
    · have hlt : n / 4 < n := by omega
      obtain ⟨a, r, heq, hr⟩ := ih (n / 4) hlt (by omega)
      refine ⟨a + 1, r, ?_, hr⟩
      have : n = 4 * (n / 4) := by omega
      rw [this, heq]; ring
    · exact ⟨0, n, by simp, h⟩

/-- A divisor of a power of two that is not itself even must be 1. -/
theorem odd_divisor_of_pow2 (m k : ℕ) (hdvd : m ∣ 2 ^ k)
    (hm : m % 2 = 1) : m = 1 := by
  obtain ⟨j, hjk, hj⟩ := (Nat.dvd_prime_pow Nat.prime_two).mp hdvd
  cases j with
  | zero => simpa using hj
  | succ j =>
    exfalso
    have : 2 ∣ m := hj ▸ dvd_pow_self 2 (Nat.succ_ne_zero j)
    omega

/-- Master description of kf_factor on the uint32 domain: on a power of
two it succeeds with a factor list whose radices are all the 4s first then
at most one 2, multiply back to the input, and number at most MAXFACTORS;
on anything else it fails with notPowerOfTwo.  Neither overrun guard is
ever reached. -/
theorem kf_factor_spec (n : ℕ) (h1 : 1 ≤ n) (h2 : n < 2 ^ 32) :
    (IsPow2 n ∧
      ∃ L, kf_factor n = Except.ok L ∧
        (L.map KissFactor.radix).prod = n ∧
        L.length ≤ MAXFACTORS ∧
        ∃ a, L.map KissFactor.radix = List.replicate a 4 ∨
             L.map KissFactor.radix = List.replicate a 4 ++ [2]) ∨
    (¬ IsPow2 n ∧ kf_factor n = Except.error FactorFail.notPowerOfTwo) := by
  obtain ⟨a, r, heq, hr⟩ := exists_four_decomp n h1
  subst heq
  have hrpos : 1 ≤ r := by
    rcases Nat.eq_zero_or_pos r with h | h
    · subst h; simp at h1
    · exact h
  have ha15 : a ≤ 15 := by
    by_contra hgt
    have h16 : (16 : ℕ) ≤ a := by omega
    have hle : (4 : ℕ) ^ 16 ≤ 4 ^ a := Nat.pow_le_pow_right (by norm_num) h16
    have : (4 : ℕ) ^ 16 ≤ 4 ^ a * r := le_trans hle (Nat.le_mul_of_pos_right _ hrpos)
    norm_num at this
    omega
  obtain ⟨L4, hL4, hrad4⟩ :=
    kf_factor_loop4_spec a r 0 [] hr (by unfold MAXFACTORS; omega)
  rw [zero_add] at hL4
  simp only [List.nil_append] at hL4
  have hlen4 : L4.length = a := by
    have := congrArg List.length hrad4
    simpa using this
  rcases Nat.lt_or_ge (r % 2) 1 with hodd | hodd
  · -- r even, hence r % 4 = 2 since r % 4 ≠ 0
    have hr4 : r % 4 = 2 := by omega
    obtain ⟨hL2, hhalf⟩ := kf_factor_loop2_twiceodd r a L4 hr4
      (by unfold MAXFACTORS; omega)
    by_cases hone : r / 2 = 1
    · -- r = 2: success, radices are a 4s then one 2
      have hr2 : r = 2 := by omega
      subst hr2
      left
      constructor
      · exact ⟨2 * a + 1, by rw [pow_succ, pow_mul]; norm_num⟩
      · refine ⟨L4 ++ [⟨2, 1⟩], ?_, ?_, ?_, a, Or.inr ?_⟩
        · unfold kf_factor
          simp only [hL4, hL2]
          norm_num
        · simp [hrad4, List.prod_replicate]
        · simp only [List.length_append, List.length_singleton, hlen4]
          unfold MAXFACTORS
          omega
        · simp [hrad4]
    · -- r / 2 odd and > 1 divides n: not a power of two, reported as such
      right
      constructor
      · rintro ⟨k, hk⟩
        have hsplit : r = 2 * (r / 2) := by omega
        have hdvd : r / 2 ∣ 2 ^ k := by
          refine ⟨4 ^ a * 2, ?_⟩
          rw [← hk]
          calc 4 ^ a * r = 4 ^ a * (2 * (r / 2)) := by rw [← hsplit]
            _ = r / 2 * (4 ^ a * 2) := by ring
        have := odd_divisor_of_pow2 (r / 2) k hdvd hhalf
        omega
      · unfold kf_factor
        simp only [hL4, hL2]
        simp [hone]
  · -- r odd
    have hodd' : r % 2 = 1 := by omega
    have hL2 := kf_factor_loop2_odd r a L4 hodd'
    by_cases hone : r = 1
    · subst hone
      left
      constructor
      · exact ⟨2 * a, by rw [pow_mul]; norm_num⟩
      · refine ⟨L4, ?_, ?_, ?_, a, Or.inl hrad4⟩
        · unfold kf_factor
          simp only [hL4, hL2]
          simp
        · simp [hrad4, List.prod_replicate]
        · unfold MAXFACTORS
          omega
    · right
      constructor
      · rintro ⟨k, hk⟩
        have hdvd : r ∣ 2 ^ k := ⟨4 ^ a, by rw [← hk]; ring⟩
        have := odd_divisor_of_pow2 r k hdvd hodd'
        omega
      · unfold kf_factor
        simp only [hL4, hL2]
        simp [hone]

/-- C3: for every power of two N in the uint32 domain the factorization
succeeds with radices multiplying back to N, all 4s first then at most
one 2; for every other N ≥ 1 it fails and this is reported as the
not-a-power-of-two error, never a silent misfactorization. -/
theorem c3_factorization_power_of_two (n : ℕ) (h1 : 1 ≤ n) (h2 : n < 2 ^ 32) :
    (IsPow2 n →
      ∃ L, kf_factor n = Except.ok L ∧
        (L.map KissFactor.radix).prod = n ∧
        ∃ a, L.map KissFactor.radix = List.replicate a 4 ∨
             L.map KissFactor.radix = List.replicate a 4 ++ [2]) ∧
    (¬ IsPow2 n → kf_factor n = Except.error FactorFail.notPowerOfTwo) := by
  rcases kf_factor_spec n h1 h2 with ⟨hp, L, hok, hprod, _, hshape⟩ | ⟨hnp, herr⟩
  · exact ⟨fun _ => ⟨L, hok, hprod, hshape⟩, fun hc => absurd hp hc⟩
  · exact ⟨fun hp => absurd hp hnp, fun _ => herr⟩

/-- Witness for C3 at N = 8 = 2^3. -/
theorem c3_factorization_power_of_two_witness :
    ∃ L, kf_factor 8 = Except.ok L ∧ (L.map KissFactor.radix).prod = 8 ∧
      ∃ a, L.map KissFactor.radix = List.replicate a 4 ∨
           L.map KissFactor.radix = List.replicate a 4 ++ [2] :=
  (c3_factorization_power_of_two 8 (by norm_num) (by norm_num)).1
    ⟨3, by norm_num⟩

/-- C10: for every sample count the public interface admits (1 ≤ n ≤
2^31), kf_factor writes at most MAXFACTORS factors, neither of its two
overrun guard branches is reachable, and it never fails on an in-range
power of two. -/
theorem c10_factor_guards_unreachable (n : ℕ) (h1 : 1 ≤ n)
    (h2 : n ≤ 2 ^ 31) :
    kf_factor n ≠ Except.error FactorFail.overrun4 ∧
    kf_factor n ≠ Except.error FactorFail.overrun2 ∧
    (∀ L, kf_factor n = Except.ok L → L.length ≤ MAXFACTORS) ∧
    (IsPow2 n → ∃ L, kf_factor n = Except.ok L) := by
  have h2' : n < 2 ^ 32 := lt_of_le_of_lt h2 (by norm_num)
  rcases kf_factor_spec n h1 h2' with ⟨hp, L, hok, _, hlen, _⟩ | ⟨hnp, herr⟩
  · refine ⟨by simp [hok], by simp [hok], ?_, fun _ => ⟨L, hok⟩⟩
    intro L' hL'
    rw [hok] at hL'
    injection hL' with h
    exact h ▸ hlen
  · refine ⟨by simp [herr], by simp [herr], ?_, fun hp => absurd hp hnp⟩
    intro L' hL'
    rw [herr] at hL'
    exact absurd hL' (by simp)

/-- Witness for C10 at the largest admitted count N = 2^31. -/
theorem c10_factor_guards_unreachable_witness :
    kf_factor (2 ^ 31) ≠ Except.error FactorFail.overrun4 ∧
    ∃ L, kf_factor (2 ^ 31) = Except.ok L :=
  ⟨(c10_factor_guards_unreachable (2 ^ 31) (by norm_num) (by norm_num)).1,
   (c10_factor_guards_unreachable (2 ^ 31) (by norm_num)
      (by norm_num)).2.2.2 ⟨31, rfl⟩⟩

/-! ### Transform engine

Translated from ctrlc/kissfft_subset.c.  Complex single-precision samples
are modelled as pairs of rationals (see the header comment); the sample
buffer is a total map from indices to samples so that the C pointer
arithmetic becomes explicit index arithmetic.  The twiddle table is an
abstract map from index to sample: the table kiss_fft_alloc fills holds
cosf/sinf values, which are not used by any arithmetic fact proved here
(in the one concrete transform evaluated, every twiddle factor multiplies
a zero sample), so theorems quantify over the table.  The stateful
cancellation callback is modelled as a state-passing function
check : σ → Int × σ over an abstract policy state σ. -/

/-- A complex single-precision sample (fields r and i of kiss_fft_cpx). -/
abbrev Cpx := ℚ × ℚ

/-- C_MUL: componentwise complex product. -/
def cmul (a b : Cpx) : Cpx := (a.1 * b.1 - a.2 * b.2, a.1 * b.2 + a.2 * b.1)

/-- C_ADD / C_ADDTO: complex sum. -/
def cadd (a b : Cpx) : Cpx := (a.1 + b.1, a.2 + b.2)

/-- C_SUB / C_SUBFROM: complex difference. -/
def csub (a b : Cpx) : Cpx := (a.1 - b.1, a.2 - b.2)

/-- A sample buffer: total map from index to sample. -/
abbrev Buf := ℕ → Cpx

/-- Store one sample at one index of a buffer. -/
def bufSet (b : Buf) (i : ℕ) (v : Cpx) : Buf :=
  fun j => if j = i then v else b j

/-- Loop body of kf_bfly2: j counts completed iterations, cnt the
remaining ones; Fout is the base index of the stage's output region and
tw1 has advanced to index j * fstride. -/
def kf_bfly2_loop (tw : ℕ → Cpx) (fstride fout m : ℕ) :
    ℕ → ℕ → Buf → Buf
  | _, 0, buf => buf
  | j, c + 1, buf =>
    let t := cmul (buf (fout + m + j)) (tw (j * fstride))
    let buf := bufSet buf (fout + m + j) (csub (buf (fout + j)) t)
    let buf := bufSet buf (fout + j) (cadd (buf (fout + j)) t)
    kf_bfly2_loop tw fstride fout m (j + 1) c buf

/-- kf_bfly2 from kissfft_subset.c: the radix-2 butterfly over m pairs. -/
def kf_bfly2 (buf : Buf) (fout : ℕ) (fstride : ℕ) (tw : ℕ → Cpx)
    (m : ℕ) : Buf :=
  kf_bfly2_loop tw fstride fout m 0 m buf

/-- Loop body of kf_bfly4, translated statement by statement: the three
twiddle pointers have advanced to j * fstride, j * fstride * 2 and
j * fstride * 3, and the writes happen in source order (the write to
Fout[m2] reads Fout after the first C_ADDTO to it but before the
second). -/
def kf_bfly4_loop (tw : ℕ → Cpx) (fstride fout m : ℕ) :
    ℕ → ℕ → Buf → Buf
  | _, 0, buf => buf
  | j, c + 1, buf =>
    let m2 := 2 * m
    let m3 := 3 * m
    let s0 := cmul (buf (fout + j + m)) (tw (j * fstride))
    let s1 := cmul (buf (fout + j + m2)) (tw (j * fstride * 2))
    let s2 := cmul (buf (fout + j + m3)) (tw (j * fstride * 3))
    let s5 := csub (buf (fout + j)) s1
    let buf := bufSet buf (fout + j) (cadd (buf (fout + j)) s1)
    let s3 := cadd s0 s2
    let s4 := csub s0 s2
    let buf := bufSet buf (fout + j + m2) (csub (buf (fout + j)) s3)
    let buf := bufSet buf (fout + j) (cadd (buf (fout + j)) s3)
    let buf := bufSet buf (fout + j + m) (s5.1 + s4.2, s5.2 - s4.1)
    let buf := bufSet buf (fout + j + m3) (s5.1 - s4.2, s5.2 + s4.1)
    kf_bfly4_loop tw fstride fout m (j + 1) c buf

/-- kf_bfly4 from kissfft_subset.c: the radix-4 butterfly over m
quadruples. -/
def kf_bfly4 (buf : Buf) (fout : ℕ) (fstride : ℕ) (tw : ℕ → Cpx)
    (m : ℕ) : Buf :=
  kf_bfly4_loop tw fstride fout m 0 m buf

/-- Leaf copy loop of kf_work (m == 1 case): copy cnt strided input
samples to consecutive output slots. -/
def kf_leaf (fin : ℕ → Cpx) (fstride : ℕ) :
    ℕ → ℕ → ℕ → Buf → Buf
  | _, _, 0, buf => buf
  | fout, fi, c + 1, buf =>
    kf_leaf fin fstride (fout + 1) (fi + fstride) c (bufSet buf fout (fin fi))

/-- Sub-recursion loop of kf_work: run cnt sub-transforms at output
offsets advancing by m and input offsets advancing by fstride, stopping
early (and propagating the code) as soon as one returns nonzero. -/
def kf_subs {σ : Type} (sub : ℕ → ℕ → Buf → σ → Int × Buf × σ)
    (m fstride : ℕ) :
    ℕ → ℕ → ℕ → Buf → σ → Int × Buf × σ
  | 0, _, _, buf, s => (0, buf, s)
  | c + 1, fout, fi, buf, s =>
    match sub fout fi buf s with
    | (rv, buf', s') =>
      if rv ≠ 0 then (rv, buf', s')
      else kf_subs sub m fstride c (fout + m) (fi + fstride) buf' s'

/-- kf_work from kissfft_subset.c over the factor list: leaf copy or p
sub-recursions, then one cancellation check (abort propagates without
combining), then the radix-2 or radix-4 butterfly, then a second check
whose result is returned.  The C switch's default branch calls abort();
it is modelled as leaving the buffer unchanged and is unreachable for
factor lists built by kf_factor, whose radices are all 2 or 4.  An empty
factor list (never produced for a positive sample count) returns 0. -/
def kf_work {σ : Type} (check : σ → Int × σ) (tw : ℕ → Cpx)
    (fin : ℕ → Cpx) :
    List KissFactor → ℕ → ℕ → ℕ → Buf → σ → Int × Buf × σ
  | [], _, _, _, buf, s => (0, buf, s)
  | f :: rest, fout, fi, fstride, buf, s =>
    let p := f.radix
    let m := f.stride
    let first :=
      if m = 1 then
        (0, kf_leaf fin fstride fout fi (p * m) buf, s)
      else
        kf_subs (fun fo fi2 b st =>
            kf_work check tw fin rest fo fi2 (fstride * p) b st)
          m fstride p fout fi buf s
    match first with
    | (rv1, buf1, s1) =>
      if rv1 ≠ 0 then (rv1, buf1, s1)
      else
        match check s1 with
        | (rv2, s2) =>
          if rv2 ≠ 0 then (rv2, buf1, s2)
          else
            let buf2 :=
              if p = 2 then kf_bfly2 buf1 fout fstride tw m
              else if p = 4 then kf_bfly4 buf1 fout fstride tw m
              else buf1
            match check s2 with
            | (rv3, s3) => (rv3, buf2, s3)

/-- kiss_fft from kissfft_subset.c: run kf_work on the whole factor list
with output offset 0, input offset 0, and stride 1. -/
def kiss_fft {σ : Type} (check : σ → Int × σ) (tw : ℕ → Cpx)
    (fs : List KissFactor) (fin : ℕ → Cpx) (fout : Buf) (s : σ) :
    Int × Buf × σ :=
  kf_work check tw fin fs 0 0 1 fout s

/-! ### Instrumented transform engine for the cancellation-check claims

kf_workT is kf_work with a ghost event trace appended to the result: one
event per cancellation-policy query (carrying the value the callback
returned) and one event per butterfly combine (carrying the radix).  The
erasure theorem below shows the instrumentation changes nothing else, so
facts about the trace are facts about the order of checks and combines in
kf_work itself. -/

inductive KEvent
  | checked (rv : Int)
  | combined (radix : ℕ)
deriving DecidableEq, Repr

/-- Sub-recursion loop of kf_workT, accumulating the sub-traces in call
order; an early abort keeps the trace accumulated so far. -/
def kf_subsT {σ : Type}
    (sub : ℕ → ℕ → Buf → σ → Int × Buf × σ × List KEvent)
    (m fstride : ℕ) :
    ℕ → ℕ → ℕ → Buf → σ → Int × Buf × σ × List KEvent
  | 0, _, _, buf, s => (0, buf, s, [])
  | c + 1, fout, fi, buf, s =>
    match sub fout fi buf s with
    | (rv, buf', s', tr) =>
      if rv ≠ 0 then (rv, buf', s', tr)
      else
        match kf_subsT sub m fstride c (fout + m) (fi + fstride) buf' s' with
        | (rv2, buf2, s2, tr2) => (rv2, buf2, s2, tr ++ tr2)

/-- kf_work with the ghost event trace. -/
def kf_workT {σ : Type} (check : σ → Int × σ) (tw : ℕ → Cpx)
    (fin : ℕ → Cpx) :
    List KissFactor → ℕ → ℕ → ℕ → Buf → σ → Int × Buf × σ × List KEvent
  | [], _, _, _, buf, s => (0, buf, s, [])
  | f :: rest, fout, fi, fstride, buf, s =>
    let p := f.radix
    let m := f.stride
    let first :=
      if m = 1 then
        (0, kf_leaf fin fstride fout fi (p * m) buf, s, ([] : List KEvent))
      else
        kf_subsT (fun fo fi2 b st =>
            kf_workT check tw fin rest fo fi2 (fstride * p) b st)
          m fstride p fout fi buf s
    match first with
    | (rv1, buf1, s1, tr1) =>
      if rv1 ≠ 0 then (rv1, buf1, s1, tr1)
      else
        match check s1 with
        | (rv2, s2) =>
          if rv2 ≠ 0 then (rv2, buf1, s2, tr1 ++ [KEvent.checked rv2])
          else
            let buf2 :=
              if p = 2 then kf_bfly2 buf1 fout fstride tw m
              else if p = 4 then kf_bfly4 buf1 fout fstride tw m
              else buf1
            match check s2 with
            | (rv3, s3) =>
              (rv3, buf2, s3,
               tr1 ++ [KEvent.checked rv2, KEvent.combined p,
                       KEvent.checked rv3])

/-- Forget the ghost trace. -/
def dropTrace {σ : Type} (x : Int × Buf × σ × List KEvent) :
    Int × Buf × σ :=
  (x.1, x.2.1, x.2.2.1)

/-- The sub-recursion loops agree once the trace is dropped, given that
the sub-calls agree. -/
theorem kf_subsT_erase {σ : Type}
    (subT : ℕ → ℕ → Buf → σ → Int × Buf × σ × List KEvent)
    (sub : ℕ → ℕ → Buf → σ → Int × Buf × σ)
    (hsub : ∀ fo fi2 b st, dropTrace (subT fo fi2 b st) = sub fo fi2 b st)
    (m fstride : ℕ) :
    ∀ (cnt fout fi : ℕ) (buf : Buf) (s : σ),
    dropTrace (kf_subsT subT m fstride cnt fout fi buf s) =
      kf_subs sub m fstride cnt fout fi buf s := by
  intro cnt
  induction cnt with
  | zero =>
    intro fout fi buf s
    rfl
  | succ c ih =>
    intro fout fi buf s
    simp only [kf_subsT, kf_subs]
    rcases h : subT fout fi buf s with ⟨rv, buf', s', tr⟩
    have h' := hsub fout fi buf s
    rw [h] at h'
    rw [← h']
    simp only [dropTrace]
    by_cases hrv : rv ≠ 0
    · simp [hrv]
    · rw [if_neg hrv]
      push_neg at hrv
      rcases h2 : kf_subsT subT m fstride c (fout + m) (fi + fstride) buf' s'
        with ⟨rv2, buf2, s2, tr2⟩
      have h2' := ih (fout + m) (fi + fstride) buf' s'
      rw [h2] at h2'
      rw [← h2']
      simp [dropTrace, hrv]

/-- Dropping the trace from kf_workT yields exactly kf_work: the
instrumentation is ghost. -/
theorem kf_workT_erase {σ : Type} (check : σ → Int × σ) (tw : ℕ → Cpx)
    (fin : ℕ → Cpx) :
    ∀ (fs : List KissFactor) (fout fi fstride : ℕ) (buf : Buf) (s : σ),
    dropTrace (kf_workT check tw fin fs fout fi fstride buf s) =
      kf_work check tw fin fs fout fi fstride buf s := by
  intro fs
  induction fs with
  | nil =>
    intro fout fi fstride buf s
    rfl
  | cons f rest ih =>
    intro fout fi fstride buf s
    simp only [kf_workT, kf_work]
    by_cases hm : f.stride = 1
    · simp only [hm, if_pos rfl, ite_true]
      rcases hc2 : check s with ⟨rv2, s2⟩
      by_cases hrv2 : rv2 ≠ 0
      · simp [hc2, hrv2, dropTrace]
      · push_neg at hrv2
        subst hrv2
        rcases hc3 : check s2 with ⟨rv3, s3⟩
        simp [hc2, hc3, dropTrace]
    · simp only [hm, ite_false, if_neg hm]
      rcases hfst : kf_subsT (fun fo fi2 b st =>
          kf_workT check tw fin rest fo fi2 (fstride * f.radix) b st)
          f.stride fstride f.radix fout fi buf s with ⟨rv1, buf1, s1, tr1⟩
      have herase := kf_subsT_erase
        (fun fo fi2 b st =>
          kf_workT check tw fin rest fo fi2 (fstride * f.radix) b st)
        (fun fo fi2 b st =>
          kf_work check tw fin rest fo fi2 (fstride * f.radix) b st)
        (fun fo fi2 b st => ih fo fi2 (fstride * f.radix) b st)
        f.stride fstride f.radix fout fi buf s
      rw [hfst] at herase
      rw [← herase]
      simp only [dropTrace]
      by_cases hrv1 : rv1 ≠ 0
      · simp [hrv1]
      · rw [if_neg hrv1]
        push_neg at hrv1
        rcases hc2 : check s1 with ⟨rv2, s2⟩
        by_cases hrv2 : rv2 ≠ 0
        · simp [hc2, hrv2, hrv1, dropTrace]
        · push_neg at hrv2
          subst hrv2
          rcases hc3 : check s2 with ⟨rv3, s3⟩
          simp [hc2, hc3, hrv1, dropTrace]

/-- Number of cancellation-policy queries recorded in a trace. -/
def countChecks (tr : List KEvent) : ℕ :=
  (tr.filter fun e => match e with
    | KEvent.checked _ => true
    | KEvent.combined _ => false).length

/-- Number of butterfly combines recorded in a trace. -/
def countCombines (tr : List KEvent) : ℕ :=
  (tr.filter fun e => match e with
    | KEvent.checked _ => false
    | KEvent.combined _ => true).length

/-- Every policy query recorded in the trace returned 0 (continue). -/
def ChecksAllZero (tr : List KEvent) : Prop :=
  ∀ rv : Int, KEvent.checked rv ∈ tr → rv = 0

/-- Number of recursion nodes (invocations of kf_work) in the dynamic
call tree induced by a factor list. -/
def kfNodes : List KissFactor → ℕ
  | [] => 0
  | f :: rest => 1 + (if f.stride = 1 then 0 else f.radix * kfNodes rest)

theorem countChecks_append (t1 t2 : List KEvent) :
    countChecks (t1 ++ t2) = countChecks t1 + countChecks t2 := by
  simp [countChecks]

theorem countCombines_append (t1 t2 : List KEvent) :
    countCombines (t1 ++ t2) = countCombines t1 + countCombines t2 := by
  simp [countCombines]

theorem checksAllZero_append (t1 t2 : List KEvent) :
    ChecksAllZero (t1 ++ t2) ↔ ChecksAllZero t1 ∧ ChecksAllZero t2 := by
  unfold ChecksAllZero
  simp only [List.mem_append, or_imp, forall_and]

theorem checksAllZero_nil : ChecksAllZero [] := by
  intro rv h
  simp at h

/-- If every invocation of the sub-call completes with code 0 and a trace
of exactly K checks and C combines, all zero, then the sub-recursion loop
over cnt calls completes with code 0 and cnt * K checks, cnt * C
combines, all zero. -/
theorem kf_subsT_no_abort {σ : Type}
    (sub : ℕ → ℕ → Buf → σ → Int × Buf × σ × List KEvent)
    (m fstride K C : ℕ)
    (hsub : ∀ fo fi2 b st,
      (sub fo fi2 b st).1 = 0 ∧
      countChecks (sub fo fi2 b st).2.2.2 = K ∧
      countCombines (sub fo fi2 b st).2.2.2 = C ∧
      ChecksAllZero (sub fo fi2 b st).2.2.2) :
    ∀ (cnt fout fi : ℕ) (buf : Buf) (s : σ),
    (kf_subsT sub m fstride cnt fout fi buf s).1 = 0 ∧
    countChecks (kf_subsT sub m fstride cnt fout fi buf s).2.2.2 =
      cnt * K ∧
    countCombines (kf_subsT sub m fstride cnt fout fi buf s).2.2.2 =
      cnt * C ∧
    ChecksAllZero (kf_subsT sub m fstride cnt fout fi buf s).2.2.2 := by
  intro cnt
  induction cnt with
  | zero =>
    intro fout fi buf s
    exact ⟨rfl, by simp [kf_subsT, countChecks],
      by simp [kf_subsT, countCombines], checksAllZero_nil⟩
  | succ c ih =>
    intro fout fi buf s
    simp only [kf_subsT]
    rcases h : sub fout fi buf s with ⟨rv, buf', s', tr⟩
    have h' := hsub fout fi buf s
    rw [h] at h'
    obtain ⟨hrv, hK, hC, hz⟩ := h'
    simp only at hrv hK hC hz
    subst hrv
    simp only [ne_eq, not_true_eq_false, ite_false, reduceIte]
    rcases h2 : kf_subsT sub m fstride c (fout + m) (fi + fstride) buf' s'
      with ⟨rv2, buf2, s2, tr2⟩
    have h2' := ih (fout + m) (fi + fstride) buf' s'
    rw [h2] at h2'
    obtain ⟨hrv2, hK2, hC2, hz2⟩ := h2'
    simp only at hrv2 hK2 hC2 hz2
    refine ⟨hrv2, ?_, ?_, ?_⟩
    · simp only [countChecks_append, hK, hK2]
      ring
    · simp only [countCombines_append, hC, hC2]
      ring
    · exact (checksAllZero_append tr tr2).mpr ⟨hz, hz2⟩

/-- On a run where every policy query answers continue (0), kf_work
completes with code 0 and its trace holds exactly two checks and one
combine per recursion node, every recorded check zero. -/
theorem kf_workT_no_abort {σ : Type} (check : σ → Int × σ)
    (hc : ∀ t, (check t).1 = 0) (tw fin : ℕ → Cpx) :
    ∀ (fs : List KissFactor) (fout fi fstride : ℕ) (buf : Buf) (s : σ),
    (kf_workT check tw fin fs fout fi fstride buf s).1 = 0 ∧
    countChecks (kf_workT check tw fin fs fout fi fstride buf s).2.2.2 =
      2 * kfNodes fs ∧
    countCombines (kf_workT check tw fin fs fout fi fstride buf s).2.2.2 =
      kfNodes fs ∧
    ChecksAllZero (kf_workT check tw fin fs fout fi fstride buf s).2.2.2 := by
  intro fs
  induction fs with
  | nil =>
    intro fout fi fstride buf s
    exact ⟨rfl, by simp [kf_workT, countChecks, kfNodes],
      by simp [kf_workT, countCombines, kfNodes], checksAllZero_nil⟩
  | cons f rest ih =>
    intro fout fi fstride buf s
    simp only [kf_workT]
    by_cases hm : f.stride = 1
    · simp only [hm, ite_true, if_pos rfl]
      simp only [ne_eq, not_true_eq_false, ite_false, reduceIte]
      rcases hc2 : check s with ⟨rv2, s2⟩
      have hrv2 : rv2 = 0 := by
        have := hc s; rw [hc2] at this; exact this
      subst hrv2
      simp only [ne_eq, not_true_eq_false, ite_false, reduceIte]
      rcases hc3 : check s2 with ⟨rv3, s3⟩
      have hrv3 : rv3 = 0 := by
        have := hc s2; rw [hc3] at this; exact this
      subst hrv3
      refine ⟨rfl, ?_, ?_, ?_⟩
      · simp [countChecks, kfNodes, hm]
      · simp [countCombines, kfNodes, hm]
      · intro rv h
        simp at h
        exact h
    · simp only [hm, ite_false, if_neg hm]
      have hsubs := kf_subsT_no_abort
        (fun fo fi2 b st =>
          kf_workT check tw fin rest fo fi2 (fstride * f.radix) b st)
        f.stride fstride (2 * kfNodes rest) (kfNodes rest)
        (fun fo fi2 b st => by
          obtain ⟨h1, h2, h3, h4⟩ := ih fo fi2 (fstride * f.radix) b st
          exact ⟨h1, h2, h3, h4⟩)
        f.radix fout fi buf s
      rcases hfst : kf_subsT (fun fo fi2 b st =>
          kf_workT check tw fin rest fo fi2 (fstride * f.radix) b st)
          f.stride fstride f.radix fout fi buf s with ⟨rv1, buf1, s1, tr1⟩
      rw [hfst] at hsubs
      obtain ⟨hrv1, hK1, hC1, hz1⟩ := hsubs
      simp only at hrv1 hK1 hC1 hz1
      subst hrv1
      simp only [ne_eq, not_true_eq_false, ite_false, reduceIte]
      rcases hc2 : check s1 with ⟨rv2, s2⟩
      have hrv2 : rv2 = 0 := by
        have := hc s1; rw [hc2] at this; exact this
      subst hrv2
      simp only [ne_eq, not_true_eq_false, ite_false, reduceIte]
      rcases hc3 : check s2 with ⟨rv3, s3⟩
      have hrv3 : rv3 = 0 := by
        have := hc s2; rw [hc3] at this; exact this
      subst hrv3
      refine ⟨rfl, ?_, ?_, ?_⟩
      · simp only [countChecks_append, hK1]
        have : countChecks [KEvent.checked 0, KEvent.combined f.radix,
            KEvent.checked 0] = 2 := by simp [countChecks]
        rw [this]
        simp only [kfNodes, hm, ite_false, if_neg hm]
        ring
      · simp only [countCombines_append, hC1]
        have : countCombines [KEvent.checked 0, KEvent.combined f.radix,
            KEvent.checked 0] = 1 := by simp [countCombines]
        rw [this]
        simp only [kfNodes, hm, ite_false, if_neg hm]
        ring
      · refine (checksAllZero_append _ _).mpr ⟨hz1, ?_⟩
        intro rv h
        simp at h
        exact h

/-- Abort shape for the sub-recursion loop: if the sub-calls stop at their
first aborting check, so does the loop. -/
theorem kf_subsT_abort_shape {σ : Type}
    (sub : ℕ → ℕ → Buf → σ → Int × Buf × σ × List KEvent)
    (m fstride : ℕ)
    (hsub : ∀ fo fi2 b st,
      ((sub fo fi2 b st).1 = 0 → ChecksAllZero (sub fo fi2 b st).2.2.2) ∧
      ((sub fo fi2 b st).1 ≠ 0 →
        ∃ t, (sub fo fi2 b st).2.2.2 =
            t ++ [KEvent.checked (sub fo fi2 b st).1] ∧
          ChecksAllZero t)) :
    ∀ (cnt fout fi : ℕ) (buf : Buf) (s : σ),
    ((kf_subsT sub m fstride cnt fout fi buf s).1 = 0 →
      ChecksAllZero (kf_subsT sub m fstride cnt fout fi buf s).2.2.2) ∧
    ((kf_subsT sub m fstride cnt fout fi buf s).1 ≠ 0 →
      ∃ t, (kf_subsT sub m fstride cnt fout fi buf s).2.2.2 =
          t ++ [KEvent.checked (kf_subsT sub m fstride cnt fout fi buf s).1] ∧
        ChecksAllZero t) := by
  intro cnt
  induction cnt with
  | zero =>
    intro fout fi buf s
    exact ⟨fun _ => checksAllZero_nil, fun h => absurd rfl h⟩
  | succ c ih =>
    intro fout fi buf s
    simp only [kf_subsT]
    rcases h : sub fout fi buf s with ⟨rv, buf', s', tr⟩
    have h' := hsub fout fi buf s
    rw [h] at h'
    simp only at h'
    by_cases hrv : rv ≠ 0
    · rw [if_pos hrv]
      exact ⟨fun h0 => absurd h0 hrv, fun _ => h'.2 hrv⟩
    · rw [if_neg hrv]
      push_neg at hrv
      subst hrv
      have hz := h'.1 rfl
      rcases h2 : kf_subsT sub m fstride c (fout + m) (fi + fstride) buf' s'
        with ⟨rv2, buf2, s2, tr2⟩
      have h2' := ih (fout + m) (fi + fstride) buf' s'
      rw [h2] at h2'
      simp only at h2' ⊢
      constructor
      · intro hrv2
        exact (checksAllZero_append _ _).mpr ⟨hz, h2'.1 hrv2⟩
      · intro hrv2
        obtain ⟨t2, ht2, hzt2⟩ := h2'.2 hrv2
        refine ⟨tr ++ t2, ?_, (checksAllZero_append _ _).mpr ⟨hz, hzt2⟩⟩
        rw [ht2, List.append_assoc]

/-- Abort shape for kf_work: whenever it returns a nonzero code, the
recorded trace is a run of events whose checks all answered continue,
terminated by the single aborting check, whose code is the one returned —
so no combine is performed at or after the aborting check and the code
propagates out through every enclosing recursion level unchanged. -/
theorem kf_workT_abort_shape {σ : Type} (check : σ → Int × σ)
    (tw fin : ℕ → Cpx) :
    ∀ (fs : List KissFactor) (fout fi fstride : ℕ) (buf : Buf) (s : σ),
    ((kf_workT check tw fin fs fout fi fstride buf s).1 = 0 →
      ChecksAllZero (kf_workT check tw fin fs fout fi fstride buf s).2.2.2) ∧
    ((kf_workT check tw fin fs fout fi fstride buf s).1 ≠ 0 →
      ∃ t, (kf_workT check tw fin fs fout fi fstride buf s).2.2.2 =
          t ++ [KEvent.checked
            (kf_workT check tw fin fs fout fi fstride buf s).1] ∧
        ChecksAllZero t) := by
  intro fs
  induction fs with
  | nil =>
    intro fout fi fstride buf s
    exact ⟨fun _ => checksAllZero_nil, fun h => absurd rfl h⟩
  | cons f rest ih =>
    intro fout fi fstride buf s
    simp only [kf_workT]
    by_cases hm : f.stride = 1
    · simp only [hm, ite_true, if_pos rfl]
      simp only [ne_eq, not_true_eq_false, ite_false, reduceIte]
      rcases hc2 : check s with ⟨rv2, s2⟩
      by_cases hrv2 : rv2 ≠ 0
      · rw [if_pos hrv2]
        refine ⟨fun h0 => absurd h0 hrv2, fun _ => ⟨[], by simp, checksAllZero_nil⟩⟩
      · rw [if_neg hrv2]
        push_neg at hrv2
        subst hrv2
        rcases hc3 : check s2 with ⟨rv3, s3⟩
        simp only
        constructor
        · intro hrv3
          subst hrv3
          intro rv h
          simp at h
          exact h
        · intro hrv3
          refine ⟨[KEvent.checked 0, KEvent.combined f.radix], by simp, ?_⟩
          intro rv h
          simp at h
          exact h
    · simp only [hm, ite_false, if_neg hm]
      have hsubs := kf_subsT_abort_shape
        (fun fo fi2 b st =>
          kf_workT check tw fin rest fo fi2 (fstride * f.radix) b st)
        f.stride fstride
        (fun fo fi2 b st => ih fo fi2 (fstride * f.radix) b st)
        f.radix fout fi buf s
      rcases hfst : kf_subsT (fun fo fi2 b st =>
          kf_workT check tw fin rest fo fi2 (fstride * f.radix) b st)
          f.stride fstride f.radix fout fi buf s with ⟨rv1, buf1, s1, tr1⟩
      rw [hfst] at hsubs
      simp only at hsubs ⊢
      by_cases hrv1 : rv1 ≠ 0
      · rw [if_pos hrv1]
        exact ⟨fun h0 => absurd h0 hrv1, fun _ => hsubs.2 hrv1⟩
      · rw [if_neg hrv1]
        push_neg at hrv1
        subst hrv1
        have hz1 := hsubs.1 rfl
        rcases hc2 : check s1 with ⟨rv2, s2⟩
        by_cases hrv2 : rv2 ≠ 0
        · rw [if_pos hrv2]
          refine ⟨fun h0 => absurd h0 hrv2, fun _ => ⟨tr1, rfl, hz1⟩⟩
        · rw [if_neg hrv2]
          push_neg at hrv2
          subst hrv2
          rcases hc3 : check s2 with ⟨rv3, s3⟩
          simp only
          constructor
          · intro hrv3
            subst hrv3
            refine (checksAllZero_append _ _).mpr ⟨hz1, ?_⟩
            intro rv h
            simp at h
            exact h
          · intro hrv3
            refine ⟨tr1 ++ [KEvent.checked 0, KEvent.combined f.radix],
              ?_, ?_⟩
            · simp
            · refine (checksAllZero_append _ _).mpr ⟨hz1, ?_⟩
              intro rv h
              simp at h
              exact h

/-- Unit impulse input: 1+0i at index 0, zeros elsewhere. -/
def impulse8 : ℕ → Cpx := fun i => if i = 0 then (1, 0) else (0, 0)

/-- All-zero sample buffer. -/
def zeroBuf : Buf := fun _ => (0, 0)

/-- A concrete twiddle table used for witnesses (the claims proved here
hold for every table, so any concrete one will do). -/
def twOne : ℕ → Cpx := fun _ => (1, 0)

/-- C2: over the factor lists the transform actually builds, every
recursion stage queries the policy once after its sub-recursions; on
abort the combine is skipped and the code propagates out immediately
(the trace ends at the aborting check, all earlier checks having answered
continue); otherwise the combine runs and a second query follows, whose
abort propagates the same way; and on a run with no abort the policy is
queried exactly twice per recursion node (and one combine per node runs).
The final conjunct discharges the instrumentation: dropping the ghost
trace gives kf_work itself. -/
theorem c2_check_placement {σ : Type} (n : ℕ) (fs : List KissFactor)
    (_hfs : kf_factor n = Except.ok fs)
    (check : σ → Int × σ) (tw fin : ℕ → Cpx)
    (fout fi fstride : ℕ) (buf : Buf) (s : σ) :
    ((∀ t, (check t).1 = 0) →
      (kf_workT check tw fin fs fout fi fstride buf s).1 = 0 ∧
      countChecks (kf_workT check tw fin fs fout fi fstride buf s).2.2.2 =
        2 * kfNodes fs ∧
      countCombines
          (kf_workT check tw fin fs fout fi fstride buf s).2.2.2 =
        kfNodes fs) ∧
    ((kf_workT check tw fin fs fout fi fstride buf s).1 ≠ 0 →
      ∃ t, (kf_workT check tw fin fs fout fi fstride buf s).2.2.2 =
          t ++ [KEvent.checked
            (kf_workT check tw fin fs fout fi fstride buf s).1] ∧
        ChecksAllZero t) ∧
    dropTrace (kf_workT check tw fin fs fout fi fstride buf s) =
      kf_work check tw fin fs fout fi fstride buf s := by
  refine ⟨fun hc => ?_,
    (kf_workT_abort_shape check tw fin fs fout fi fstride buf s).2,
    kf_workT_erase check tw fin fs fout fi fstride buf s⟩
  obtain ⟨h1, h2, h3, _⟩ :=
    kf_workT_no_abort check hc tw fin fs fout fi fstride buf s
  exact ⟨h1, h2, h3⟩

/-- Witness for C2: the N = 8 transform under an always-continue policy
performs 2 checks per node. -/
theorem c2_check_placement_witness :
    (kf_workT (fun s : Unit => ((0 : Int), s)) twOne impulse8
        [⟨4, 2⟩, ⟨2, 1⟩] 0 0 1 zeroBuf ()).1 = 0 ∧
    countChecks (kf_workT (fun s : Unit => ((0 : Int), s)) twOne impulse8
        [⟨4, 2⟩, ⟨2, 1⟩] 0 0 1 zeroBuf ()).2.2.2 =
      2 * kfNodes [⟨4, 2⟩, ⟨2, 1⟩] := by
  have h := (c2_check_placement 8 [⟨4, 2⟩, ⟨2, 1⟩]
    (by simp [kf_factor, kf_factor_loop4, kf_factor_loop2, MAXFACTORS])
    (fun s : Unit => ((0 : Int), s)) twOne impulse8 0 0 1 zeroBuf ()).1
    (fun t => rfl)
  exact ⟨h.1, h.2.1⟩

/-! ### Cancellation policies and the shared transform driver

Translated from ctrlc/interruptible.c.  The periodic_signal_check struct
carries the rate-limiter state and the check counter.  The host's
PyErr_CheckSignals result is modelled as an input (the Int the host would
return: 0 for continue, nonzero for a pending interrupt or query error),
and the monotonic clock reading as an input nanosecond value; interrupt
masking, the GIL and the timing telemetry are host-runtime plumbing the
spec places out of scope.  nanosec is uint64 in C, so the clock
subtraction in the timed variants wraps modulo 2^64. -/

structure PSC where
  ns_last_check : ℕ
  ns_between_checks : ℕ
  check_count : ℕ
deriving DecidableEq, Repr

def UINT64_MOD : ℕ := 2 ^ 64

/-- uninterruptible_check: never consults the host, never touches the
counter, always continues. -/
def uninterruptible_check (s : PSC) : Int × PSC := (0, s)

/-- simple_interruptible_check: consults the host on every invocation,
incrementing the counter first; the host's code is returned. -/
def simple_interruptible_check (host : Int) (s : PSC) : Int × PSC :=
  (host, { s with check_count := s.check_count + 1 })

/-- timed_interruptible_check: reads the fine monotonic clock; if fewer
than ns_between_checks nanoseconds (in wrapping uint64 arithmetic) have
passed since the last consult, returns continue without touching any
state; otherwise records the new time and defers to the simple check. -/
def timed_interruptible_check (host : Int) (now : ℕ) (s : PSC) :
    Int × PSC :=
  if (now + UINT64_MOD - s.ns_last_check) % UINT64_MOD <
      s.ns_between_checks then
    (0, s)
  else
    simple_interruptible_check host { s with ns_last_check := now }

/-- timed_coarse_interruptible_check: same body as the fine-clock timed
check; only the clock consulted differs, which is a property of the
caller-supplied reading here. -/
def timed_coarse_interruptible_check (host : Int) (now : ℕ) (s : PSC) :
    Int × PSC :=
  if (now + UINT64_MOD - s.ns_last_check) % UINT64_MOD <
      s.ns_between_checks then
    (0, s)
  else
    simple_interruptible_check host { s with ns_last_check := now }

/-- Errors surfaced by maybe_interruptible before the transform runs
(each is raised as a distinct Python exception in the source). -/
inductive XformError
  | sizeMismatch
  | emptyInput
  | tooManySamples
  | notPowerOfTwo
deriving DecidableEq, Repr

def KISS_FFT_MAX_SAMPLES : ℕ := 2 ^ 31

/-- maybe_interruptible from interruptible.c, shared by all four public
functions: validate the buffers (equal sizes, at least 1 sample, at most
KISS_FFT_MAX_SAMPLES), build the factorization (failure is reported as
the not-a-power-of-two error with the output buffer untouched), run one
pre-check (kiss_fft_alloc may take significant time), then the transform,
then treat a host interrupt still pending at the end as an interruption.
The returned pair is the outcome — error, or (interrupted, checks
counter) — together with the output buffer (unchanged on every error
path).  start_ns is the clock reading taken at the start (stored into the
rate limiter when one is configured) and host_final the host's
end-of-call pending-interrupt code.  malloc failure and the timing
telemetry are not modelled. -/
def maybe_interruptible (check : PSC → Int × PSC) (fin : ℕ → Cpx)
    (fout : Buf) (nIn nOut : ℕ) (tw : ℕ → Cpx)
    (start_ns : ℕ) (host_final : Int) (s : PSC) :
    Except XformError (Bool × ℕ) × Buf :=
  if nIn ≠ nOut then (Except.error XformError.sizeMismatch, fout)
  else if nIn = 0 then (Except.error XformError.emptyInput, fout)
  else if KISS_FFT_MAX_SAMPLES < nIn then
    (Except.error XformError.tooManySamples, fout)
  else
    let s0 := if s.ns_between_checks ≠ 0 then
        { s with ns_last_check := start_ns }
      else s
    match kf_factor nIn with
    | Except.error _ => (Except.error XformError.notPowerOfTwo, fout)
    | Except.ok fs =>
      match check s0 with
      | (rv0, s1) =>
        if rv0 ≠ 0 then (Except.ok (true, s1.check_count), fout)
        else
          match kiss_fft check tw fs fin fout s1 with
          | (rv, buf, s2) =>
            let interrupted := rv ≠ 0 ∨ host_final ≠ 0
            (Except.ok (decide interrupted, s2.check_count), buf)

/-- C6: invoking the transform with equal-sized buffers of N = 3 samples
(not a power of two) reports the not-a-power-of-two error and leaves the
output buffer exactly as it was, for every policy, input, twiddle table,
clock reading, host state and policy state. -/
theorem c6_n3_error_output_untouched (check : PSC → Int × PSC)
    (fin : ℕ → Cpx) (fout : Buf) (tw : ℕ → Cpx) (start_ns : ℕ)
    (host_final : Int) (s : PSC) :
    maybe_interruptible check fin fout 3 3 tw start_ns host_final s =
      (Except.error XformError.notPowerOfTwo, fout) := by
  simp [maybe_interruptible, kf_factor, kf_factor_loop4, kf_factor_loop2,
    MAXFACTORS, KISS_FFT_MAX_SAMPLES]

/-- C4 counterexample: a RateLimited check invoked before its interval
has elapsed (last check at 0 ns, interval 100 ns, now 50 ns) leaves the
check counter at 5 instead of incrementing it to 6, refuting "each
invocation increments the counter by exactly one". -/
theorem c4_counterexample_timed_no_increment :
    (timed_interruptible_check 1 50 ⟨0, 100, 5⟩).2.check_count = 5 ∧
    ¬ (timed_interruptible_check 1 50 ⟨0, 100, 5⟩).2.check_count =
        (PSC.mk 0 100 5).check_count + 1 := by
  constructor <;> decide

/-- C4 as amended: the Always variant increments the counter by exactly
one on every invocation; the RateLimited variants (fine and coarse clock)
leave their state entirely unchanged when invoked before the interval has
elapsed and increment the counter by exactly one otherwise; consequently
the counter is monotonically non-decreasing across the checks of one
invocation for all three querying variants. -/
theorem c4_check_counter_behaviour :
    (∀ (host : Int) (s : PSC),
      (simple_interruptible_check host s).2.check_count =
        s.check_count + 1) ∧
    (∀ (host : Int) (now : ℕ) (s : PSC),
      ((now + UINT64_MOD - s.ns_last_check) % UINT64_MOD <
          s.ns_between_checks →
        (timed_interruptible_check host now s).2 = s) ∧
      (¬ (now + UINT64_MOD - s.ns_last_check) % UINT64_MOD <
          s.ns_between_checks →
        (timed_interruptible_check host now s).2.check_count =
          s.check_count + 1)) ∧
    (∀ (host : Int) (now : ℕ) (s : PSC),
      ((now + UINT64_MOD - s.ns_last_check) % UINT64_MOD <
          s.ns_between_checks →
        (timed_coarse_interruptible_check host now s).2 = s) ∧
      (¬ (now + UINT64_MOD - s.ns_last_check) % UINT64_MOD <
          s.ns_between_checks →
        (timed_coarse_interruptible_check host now s).2.check_count =
          s.check_count + 1)) ∧
    (∀ (host : Int) (s : PSC),
      s.check_count ≤ (simple_interruptible_check host s).2.check_count) ∧
    (∀ (host : Int) (now : ℕ) (s : PSC),
      s.check_count ≤ (timed_interruptible_check host now s).2.check_count) ∧
    (∀ (host : Int) (now : ℕ) (s : PSC),
      s.check_count ≤
        (timed_coarse_interruptible_check host now s).2.check_count) := by
  refine ⟨fun host s => rfl, fun host now s => ⟨?_, ?_⟩,
    fun host now s => ⟨?_, ?_⟩, fun host s => by
      simp [simple_interruptible_check], fun host now s => ?_,
    fun host now s => ?_⟩
  · intro h
    simp [timed_interruptible_check, h]
  · intro h
    simp [timed_interruptible_check, if_neg h, simple_interruptible_check]
  · intro h
    simp [timed_coarse_interruptible_check, h]
  · intro h
    simp [timed_coarse_interruptible_check, if_neg h,
      simple_interruptible_check]
  · unfold timed_interruptible_check
    split
    · simp
    · simp [simple_interruptible_check]
  · unfold timed_coarse_interruptible_check
    split
    · simp
    · simp [simple_interruptible_check]

/-- Witness for C4's amended statement: an elapsed-interval invocation
(now 200 ns, interval 100 ns) increments the counter from 5 to 6. -/
theorem c4_check_counter_behaviour_witness :
    (timed_interruptible_check 1 200 ⟨0, 100, 5⟩).2.check_count = 5 + 1 :=
  (c4_check_counter_behaviour.2.1 1 200 ⟨0, 100, 5⟩).2 (by decide)

/-- The fft_uninterruptible entry point (Never policy): runs
maybe_interruptible with the non-checking callback and a zeroed
periodic_signal_check state. -/
def uninterruptible (fin : ℕ → Cpx) (fout : Buf) (nIn nOut : ℕ)
    (tw : ℕ → Cpx) (start_ns : ℕ) (host_final : Int) :
    Except XformError (Bool × ℕ) × Buf :=
  maybe_interruptible uninterruptible_check fin fout nIn nOut tw
    start_ns host_final ⟨0, 0, 0⟩

set_option maxHeartbeats 1000000 in
/-- Full evaluation of the uninterruptible N = 8 impulse transform with
no host interrupt pending at the end, for every twiddle table, initial
output buffer and start time: it completes with interrupted = false and
counter 0, and writes the all-ones (flat) spectrum.  Every twiddle factor
multiplies a zero sample in this computation, so the result does not
depend on the table, and the rational arithmetic performed coincides with
the exact binary32 arithmetic of the C code on these values. -/
theorem uninterruptible_impulse8_eval (tw : ℕ → Cpx) (fout : Buf)
    (start_ns : ℕ) :
    (uninterruptible impulse8 fout 8 8 tw start_ns 0).1 =
      Except.ok (false, 0) ∧
    (List.range 8).map
        (uninterruptible impulse8 fout 8 8 tw start_ns 0).2 =
      List.replicate 8 ((1 : ℚ), (0 : ℚ)) := by
  unfold uninterruptible
  simp [maybe_interruptible, kiss_fft, uninterruptible_check,
    kf_factor, kf_factor_loop4, kf_factor_loop2, MAXFACTORS,
    KISS_FFT_MAX_SAMPLES, kf_work, kf_subs, kf_leaf, kf_bfly2,
    kf_bfly2_loop, kf_bfly4, kf_bfly4_loop, bufSet, cmul, cadd, csub,
    impulse8, List.range_succ]

/-- C5 counterexample: the N = 8 unit-impulse run under the Never policy
reports a checks value of 0, while the factorization of 8 has 2 stages,
so the claimed value (number of stages times 2 = 4) is wrong. -/
theorem c5_counterexample_checks_not_stages_times_two :
    (uninterruptible impulse8 zeroBuf 8 8 twOne 0 0).1 =
      Except.ok (false, 0) ∧
    kf_factor 8 = Except.ok [⟨4, 2⟩, ⟨2, 1⟩] ∧
    (0 : ℕ) ≠ 2 * List.length [(⟨4, 2⟩ : KissFactor), ⟨2, 1⟩] := by
  refine ⟨(uninterruptible_impulse8_eval twOne zeroBuf 0).1, ?_, by decide⟩
  simp [kf_factor, kf_factor_loop4, kf_factor_loop2, MAXFACTORS]

/-- C5 as amended: the N = 8 unit-impulse transform under the Never
policy (with no host interrupt pending at the end) produces 8 output
samples all exactly 1+0i, reports interrupted = false, and reports a
checks value of 0 — the Never policy's callback never increments the
counter (the source's own docstring states the count is always zero for
this entry point). -/
theorem c5_impulse8_flat_spectrum (tw : ℕ → Cpx) (fout : Buf)
    (start_ns : ℕ) :
    (uninterruptible impulse8 fout 8 8 tw start_ns 0).1 =
      Except.ok (false, 0) ∧
    (List.range 8).map
        (uninterruptible impulse8 fout 8 8 tw start_ns 0).2 =
      List.replicate 8 ((1 : ℚ), (0 : ℚ)) :=
  uninterruptible_impulse8_eval tw fout start_ns

/-! ### Periodic event generator scope guard

Translated from ctrlc/signaler.c: the reentrancy depth counting of
PSC_enter and PSC_exit.  The entry_count field is a C unsigned int, so
the saturation guard at UINT_MAX is kept; worker_running, worker_starts
and worker_stops are ghost observations of the pthread_create call in
PSC_enter and the stop_signal_thread call in PSC_exit (whose
signal-and-join internals are asynchronous host behaviour outside this
embedding).  A failed enter (saturated counter, where the C code raises
RuntimeError) leaves the state unchanged. -/

def UINT_MAX : ℕ := 2 ^ 32 - 1

structure PSCtx where
  entry_count : ℕ
  worker_running : Bool
  worker_starts : ℕ
  worker_stops : ℕ
deriving DecidableEq, Repr

/-- PSC_enter: refuse at the saturation bound; start the worker on the
0 to 1 transition; always increment the depth on success. -/
def PSC_enter (s : PSCtx) : Option PSCtx :=
  if s.entry_count = UINT_MAX then none
  else
    let s1 := if s.entry_count = 0 then
        { s with worker_running := true,
                 worker_starts := s.worker_starts + 1 }
      else s
    some { s1 with entry_count := s1.entry_count + 1 }

/-- PSC_exit: stop and join the worker on the 1 to 0 transition; then
decrement the depth when it is positive. -/
def PSC_exit (s : PSCtx) : PSCtx :=
  let s1 := if s.entry_count = 1 then
      { s with worker_running := false,
               worker_stops := s.worker_stops + 1 }
    else s
  if 0 < s1.entry_count then { s1 with entry_count := s1.entry_count - 1 }
  else s1

/-- State effect of one arm() call; an error changes nothing. -/
def PSC_enter_effect (s : PSCtx) : PSCtx := (PSC_enter s).getD s

/-- k arm() calls in a row. -/
def PSC_enterN : ℕ → PSCtx → PSCtx
  | 0, s => s
  | k + 1, s => PSC_enterN k (PSC_enter_effect s)

/-- k disarm() calls in a row. -/
def PSC_exitN : ℕ → PSCtx → PSCtx
  | 0, s => s
  | k + 1, s => PSC_exitN k (PSC_exit s)

/-- The Idle state of a freshly constructed generator. -/
def PSCtx.idle0 : PSCtx := ⟨0, false, 0, 0⟩

theorem PSC_enterN_armed (k : ℕ) :
    ∀ c : ℕ, 1 ≤ c → c ≤ UINT_MAX →
    PSC_enterN k ⟨c, true, 1, 0⟩ =
      ⟨min (c + k) UINT_MAX, true, 1, 0⟩ := by
  induction k with
  | zero =>
    intro c h1 h2
    have hmin : min (c + 0) UINT_MAX = c := by omega
    rw [hmin]
    rfl
  | succ k ih =>
    intro c h1 h2
    have hc0 : ¬ c = 0 := by omega
    show PSC_enterN k (PSC_enter_effect ⟨c, true, 1, 0⟩) = _
    by_cases hc : c = UINT_MAX
    · have heff : PSC_enter_effect ⟨c, true, 1, 0⟩ = ⟨c, true, 1, 0⟩ := by
        simp [PSC_enter_effect, PSC_enter, hc]
      rw [heff, ih c h1 h2]
      have hmin : min (c + k) UINT_MAX = min (c + (k + 1)) UINT_MAX := by
        omega
      rw [hmin]
    · have heff : PSC_enter_effect ⟨c, true, 1, 0⟩ =
          ⟨c + 1, true, 1, 0⟩ := by
        simp [PSC_enter_effect, PSC_enter, hc, hc0]
      rw [heff, ih (c + 1) (by omega) (by omega)]
      have hmin : min (c + 1 + k) UINT_MAX = min (c + (k + 1)) UINT_MAX := by
        omega
      rw [hmin]

theorem PSC_exitN_idle (k : ℕ) :
    PSC_exitN k ⟨0, false, 1, 1⟩ = ⟨0, false, 1, 1⟩ := by
  induction k with
  | zero => rfl
  | succ k ih =>
    show PSC_exitN k (PSC_exit ⟨0, false, 1, 1⟩) = _
    have : PSC_exit ⟨0, false, 1, 1⟩ = ⟨0, false, 1, 1⟩ := by
      simp [PSC_exit]
    rw [this, ih]

theorem PSC_exitN_drain (k : ℕ) :
    ∀ c : ℕ, 1 ≤ c → c ≤ k →
    PSC_exitN k ⟨c, true, 1, 0⟩ = ⟨0, false, 1, 1⟩ := by
  induction k with
  | zero =>
    intro c h1 h2
    omega
  | succ k ih =>
    intro c h1 h2
    show PSC_exitN k (PSC_exit ⟨c, true, 1, 0⟩) = _
    by_cases hc : c = 1
    · have : PSC_exit ⟨c, true, 1, 0⟩ = ⟨0, false, 1, 1⟩ := by
        simp [PSC_exit, hc]
      rw [this, PSC_exitN_idle]
    · have : PSC_exit ⟨c, true, 1, 0⟩ = ⟨c - 1, true, 1, 0⟩ := by
        simp [PSC_exit, hc, (by omega : 0 < c)]
      rw [this, ih (c - 1) (by omega) (by omega)]

/-- C8: from Idle, any k ≥ 1 arm() calls followed by k disarm() calls
leave the generator Idle with exactly one worker start (on the 0 to 1
transition) and exactly one worker stop (on the 1 to 0 transition); an
arm() at any other (unsaturated) depth and a disarm() at any depth other
than 1 only adjust the counter and neither start nor stop the worker. -/
theorem c8_scope_guard_balanced (k : ℕ) (hk : 1 ≤ k) :
    PSC_exitN k (PSC_enterN k PSCtx.idle0) = ⟨0, false, 1, 1⟩ ∧
    (∀ s : PSCtx, s.entry_count ≠ 0 → s.entry_count ≠ UINT_MAX →
      PSC_enter s = some { s with entry_count := s.entry_count + 1 }) ∧
    (∀ s : PSCtx, s.entry_count ≠ 1 →
      PSC_exit s = { s with entry_count := s.entry_count - 1 }) := by
  refine ⟨?_, ?_, ?_⟩
  · have h1 : PSC_enterN k PSCtx.idle0 =
        ⟨min k UINT_MAX, true, 1, 0⟩ := by
      rcases k with _ | k
      · omega
      · show PSC_enterN k (PSC_enter_effect PSCtx.idle0) = _
        have heff : PSC_enter_effect PSCtx.idle0 = ⟨1, true, 1, 0⟩ := by
          simp [PSC_enter_effect, PSC_enter, PSCtx.idle0, UINT_MAX]
        rw [heff, PSC_enterN_armed k 1 (by omega)
          (by unfold UINT_MAX; omega)]
        congr 1
        omega
    rw [h1]
    exact PSC_exitN_drain k (min k UINT_MAX)
      (by unfold UINT_MAX; omega) (by omega)
  · intro s h0 hmax
    simp [PSC_enter, hmax, h0]
  · intro s h1
    unfold PSC_exit
    rw [if_neg h1]
    by_cases h0 : 0 < s.entry_count
    · rw [if_pos h0]
    · rw [if_neg h0]
      have : s.entry_count = 0 := by omega
      cases s
      simp_all

/-- Witness for C8 at k = 3. -/
theorem c8_scope_guard_balanced_witness :
    PSC_exitN 3 (PSC_enterN 3 PSCtx.idle0) = ⟨0, false, 1, 1⟩ :=
  (c8_scope_guard_balanced 3 (by norm_num)).1
